import Mathlib

/-!
Verification of git-archive-recursive (a single Python script,
src/git-archive-recursive.py) against its natural-language specification.

The development is a shallow embedding: each core component of the script
(the git-dir registry, the recursive submodule walk, the bounded job
scheduler, the ordered assembly loop and the orchestrating main flow) is
translated into an executable Lean definition, and the specified
properties are proved about those definitions.

External processes (git queries, the archive and tar processes) appear as
explicit parameters: an abstract environment of type GitEnv supplies the
tree listings and commit-validity answers that the script obtains by
running git, and the archive / tar / unlink outcomes of the assembly phase
are supplied as explicit result maps.
-/

/-!
## Python value model for the registry

GitDirCollection.add in the script does

    dirs = self.gitdirs.setdefault(str(path_hint), [])
    if gitdir not in dirs:
        dirs.append(Path(gitdir))

The elements stored in dirs are always Path objects (the append wraps the
argument in Path), but the membership test compares the raw argument
against those elements.  In Python a str never compares equal to a Path
(both __eq__ implementations return NotImplemented across the two types,
and the fallback is identity, hence False), while Path compares to Path by
its normalized string.  Callers of add pass str for the toplevel git-dir
and for --lookup arguments, and Path for submodule git-dirs, so the
distinction is observable.  GitStr records the dynamic type of the
argument; Path objects are modelled by their string (no normalization is
needed for any claim).
-/

inductive GitStr where
  | str (s : String)
  | path (s : String)
deriving DecidableEq

/-- The string carried by the Path object that Path(gitdir) constructs. -/
def GitStr.toPath : GitStr → String
  | .str s => s
  | .path s => s

/-- Python membership test of the raw add argument against a list of Path
objects: a str argument never matches; a Path argument matches by string
equality. -/
def pyMemPathList (g : GitStr) (dirs : List String) : Bool :=
  match g with
  | .str _ => false
  | .path s => dirs.contains s

/-- GitDirCollection: self.gitdirs is a Python dict (insertion ordered)
from path-hint strings to lists of git-dir Paths.  Modelled as an ordered
association list; add keeps keys unique, matching dict semantics. -/
structure GitDirCollection where
  gitdirs : List (String × List String)
deriving DecidableEq

def GitDirCollection.empty : GitDirCollection := ⟨[]⟩

/-- GitDirCollection.add.  setdefault returns the existing list for the
hint, or inserts a fresh empty list at the end of the dict; the append is
guarded by the Python membership test described above (for a fresh hint
the guard is vacuous, the list being empty). -/
def GitDirCollection.add (c : GitDirCollection) (hint : String) (g : GitStr) :
    GitDirCollection :=
  if (c.gitdirs.find? (fun pr => pr.1 == hint)).isSome then
    ⟨c.gitdirs.map (fun pr =>
      if pr.1 == hint then
        (pr.1, if pyMemPathList g pr.2 then pr.2 else pr.2 ++ [g.toPath])
      else pr)⟩
  else
    ⟨c.gitdirs ++ [(hint, [g.toPath])]⟩

/-- The list self.gitdirs.get(str(path_hint), None) consulted first by
find (empty when the hint is unregistered; the script's `if gitdirs:`
falsy test on an empty list coincides with first-match search over the
empty list). -/
def hintedDirs (c : GitDirCollection) (hint : String) : List String :=
  ((c.gitdirs.find? (fun pr => pr.1 == hint)).map Prod.snd).getD []

/-- All registered git-dirs in the order of the fallback scan: dict values
in hint-insertion order, each hint's list in append order. -/
def allDirs (c : GitDirCollection) : List String :=
  (c.gitdirs.map Prod.snd).flatten

/-- GitDirCollection.find.  valid d r models
is_valid_git_object(r, "commit", gitdir=d): does git-dir d contain r as a
valid commit object.  First search the hinted list, returning the first
hit; with no hit there (or an unregistered hint) fall through to the scan
over every registered git-dir, in dict order; None when that also fails. -/
def GitDirCollection.find (c : GitDirCollection) (valid : String → String → Bool)
    (hint rev : String) : Option String :=
  match (hintedDirs c hint).find? (fun d => valid d rev) with
  | some d => some d
  | none => (allDirs c).find? (fun d => valid d rev)

/-!
## The external git interface and the recursive walk
-/

/-- One line of git ls-tree -r --full-tree output, already split into its
mode, type, object and path fields (the parse itself is an external
contract of the script). -/
structure TreeEntry where
  mode : String
  typ : String
  obj : String
  path : String
deriving DecidableEq

/-- The read-only answers the script obtains from git: lsTree g r is the
recursive tree listing of revision r in git-dir g; validCommit g r tells
whether r is a valid commit object in g. -/
structure GitEnv where
  lsTree : String → String → List TreeEntry
  validCommit : String → String → Bool

/-- iter_git_submodules_at_rev: keep the entries of type 'commit'
(gitlinks) and yield (relative path, pinned revision). -/
def submoduleEntries (env : GitEnv) (gitdir rev : String) : List (String × String) :=
  (env.lsTree gitdir rev).filterMap
    (fun e => if e.typ == "commit" then some (e.path, e.obj) else none)

/-- The path-format assertion of recursively_iter_repos:
assert path[0] != '/' and path[-1] != '/'.  An empty path would raise
IndexError instead of AssertionError; both crash the run and are folded
into the same failing outcome below. -/
def goodPath (p : String) : Bool :=
  !p.isEmpty && p.front != '/' && p.back != '/'

/-- A node yielded by the walk: (full path, git-dir, revision). -/
def RepoNode := String × String × String
deriving instance DecidableEq for RepoNode

/-- How one invocation of the walk generator ends.  ok: the generator is
exhausted normally.  exited code: sys.exit(code) was called (the
unresolved-submodule branch calls sys.exit(0)).  assertFail: the
path-format assertion (or the IndexError on an empty path) fired.
fuelOut is a modelling artifact of the explicit recursion bound; every
theorem below supplies enough fuel for it never to occur. -/
inductive WalkOutcome where
  | ok
  | exited (code : Nat)
  | assertFail
  | fuelOut
deriving DecidableEq

/-- The body of the submodule loop of recursively_iter_repos for a single
ls-tree entry, parametrized by the recursive call rec for the child
repository.  acc is the result of processing the remaining (later)
sibling entries; a failure in this entry or in its subtree discards acc,
which renders exactly the behaviour of the sequential generator: nodes of
earlier entries are yielded first, the first failure aborts the walk, and
entries after a failure are never processed.  When the remaining depth is
0 the entry is skipped (the script prints a skip notice and continues),
before the path assertion and before any registry lookup. -/
def walkStep (env : GitEnv) (c : GitDirCollection)
    (rec : String → String → String → Int → List RepoNode × WalkOutcome)
    (top : String) (d : Int)
    (entry : String × String) (acc : List RepoNode × WalkOutcome) :
    List RepoNode × WalkOutcome :=
  if d = 0 then acc
  else if !goodPath entry.1 then ([], .assertFail)
  else
    let fullpath := top ++ "/" ++ entry.1
    match GitDirCollection.find c env.validCommit fullpath entry.2 with
    | none => ([], .exited 0)
    | some gitdir =>
      let child := rec fullpath gitdir entry.2 (d - 1)
      match child.2 with
      | .ok => (child.1 ++ acc.1, acc.2)
      | _ => child

/-- recursively_iter_repos: yield the (top, git-dir, revision) node, then
walk the gitlink entries of the tree at that revision in listing order,
resolving each pinned commit through the registry and recursing with the
depth decremented.  The explicit Nat bound makes the recursion structural;
it only caps the nesting depth of the tree and is discharged by a
large-enough choice in every statement. -/
def walkRepo (env : GitEnv) (c : GitDirCollection) :
    Nat → String → String → String → Int → List RepoNode × WalkOutcome
  | 0, _, _, _, _ => ([], .fuelOut)
  | f + 1, top, g, r, d =>
    let sub := (submoduleEntries env g r).foldr
      (walkStep env c (fun top' g' r' d' => walkRepo env c f top' g' r' d') top d)
      ([], .ok)
    ((top, g, r) :: sub.1, sub.2)

/-- The submodule loop of recursively_iter_repos over a given entry list,
with fuel f available for the child subtrees. -/
def walkSubs (env : GitEnv) (c : GitDirCollection) (f : Nat) (top : String)
    (d : Int) (entries : List (String × String)) : List RepoNode × WalkOutcome :=
  entries.foldr
    (walkStep env c (fun top' g' r' d' => walkRepo env c f top' g' r' d') top d)
    ([], .ok)

/-!
## The resolved repository tree and the intended pre-order

RepoTree is the abstract revision tree a run operates on: a repository
(git-dir and commit) together with its gitlink children, each labelled
with its relative path.  Realizes states that a concrete environment and
registry present exactly this tree to the walk, with every pinned commit
resolvable; it is the hypothesis under which the walk is specified.
-/

inductive RepoTree where
  | mk (gitdir rev : String) (subs : List (String × RepoTree))

def RepoTree.gitdirOf : RepoTree → String
  | .mk g _ _ => g

def RepoTree.revOf : RepoTree → String
  | .mk _ r _ => r

/-- HeightLE t n: every root-to-leaf chain of t has at most n repositories.
Used as the recursion bound for the walk's fuel. -/
inductive HeightLE : RepoTree → Nat → Prop where
  | mk : ∀ (g r : String) (subs : List (String × RepoTree)) (n : Nat),
      (∀ p ct, (p, ct) ∈ subs → HeightLE ct n) →
      HeightLE (.mk g r subs) (n + 1)

/-- Realizes env c top t: rooted at full path top, the environment lists
exactly the gitlink entries of t (same order, with each child's pinned
revision), every relative path is well formed, and the registry resolves
every child's pinned commit to that child's git-dir. -/
inductive Realizes (env : GitEnv) (c : GitDirCollection) : String → RepoTree → Prop where
  | node : ∀ (top gitdir rev : String) (subs : List (String × RepoTree)),
      submoduleEntries env gitdir rev = subs.map (fun pc => (pc.1, pc.2.revOf)) →
      (∀ p ct, (p, ct) ∈ subs → goodPath p = true) →
      (∀ p ct, (p, ct) ∈ subs →
        GitDirCollection.find c env.validCommit (top ++ "/" ++ p) ct.revOf =
          some ct.gitdirOf) →
      (∀ p ct, (p, ct) ∈ subs → Realizes env c (top ++ "/" ++ p) ct) →
      Realizes env c top (.mk gitdir rev subs)

mutual

/-- Modelled from the spec: the depth-bounded, depth-first pre-order
flatten of the revision tree — the node itself first, then, unless the
remaining depth is exactly 0 (depths strictly below 0 meaning unlimited),
the subtrees of its children in listing order, each child entered with
the depth decremented. -/
def RepoTree.preorderAt (t : RepoTree) (top : String) (d : Int) : List RepoNode :=
  match t with
  | .mk g r subs =>
    (top, g, r) :: (if d = 0 then [] else preorderListAt subs top d)

/-- Modelled from the spec: pre-order flatten of a sibling list. -/
def preorderListAt (l : List (String × RepoTree)) (top : String) (d : Int) :
    List RepoNode :=
  match l with
  | [] => []
  | (p, ct) :: rest =>
    RepoTree.preorderAt ct (top ++ "/" ++ p) (d - 1) ++ preorderListAt rest top d

end

mutual

/-- Modelled from the spec: the unbounded depth-first pre-order flatten of
the full reachable tree. -/
def RepoTree.preorderFull (t : RepoTree) (top : String) : List RepoNode :=
  match t with
  | .mk g r subs => (top, g, r) :: preorderListFull subs top

/-- Modelled from the spec: unbounded pre-order flatten of a sibling list. -/
def preorderListFull (l : List (String × RepoTree)) (top : String) : List RepoNode :=
  match l with
  | [] => []
  | (p, ct) :: rest =>
    RepoTree.preorderFull ct (top ++ "/" ++ p) ++ preorderListFull rest top

end

/-!
## ParallelJobs: the bounded scheduler
-/

/-- One launched archive job, as main observes it: its launch index, the
wall-clock instant at which its process happens to complete, and its exit
status.  launch and wait_next_in_order never read finishTime: the drain
order is independent of the completion order. -/
structure PJob where
  idx : Nat
  finishTime : Nat
  retcode : Int
deriving DecidableEq

/-- ParallelJobs state: the concurrency limit (after the constructor's
normalization of values below 1: nproc <= 0 becomes -1, unlimited) and
self.pending, the FIFO of launched jobs in launch order. -/
structure ParallelJobs where
  nproc : Int
  pending : List PJob
deriving DecidableEq

def ParallelJobs.init (nproc : Int) : ParallelJobs :=
  ⟨if nproc ≤ 0 then -1 else nproc, []⟩

/-- ParallelJobs.launch: after the admission wait (a 100ms poll until
fewer than nproc processes are still running, and, for nproc == 1, a
blocking wait for the new process itself — both affect timing only, not
the FIFO), the new process is appended to self.pending. -/
def ParallelJobs.launch (s : ParallelJobs) (j : PJob) : ParallelJobs :=
  { s with pending := s.pending ++ [j] }

/-- ParallelJobs.can_wait: len(self.pending) > 0. -/
def ParallelJobs.can_wait (s : ParallelJobs) : Bool :=
  s.pending.length > 0

/-- ParallelJobs.wait_next_in_order: pop the head of the FIFO and block on
that process (regardless of which processes have already finished),
returning it; none models the IndexError of popping an empty list, which
callers exclude via can_wait. -/
def ParallelJobs.wait_next_in_order (s : ParallelJobs) :
    Option (PJob × ParallelJobs) :=
  match s.pending with
  | [] => none
  | p :: rest => some (p, { s with pending := rest })

/-- The loop `while jobs.can_wait(): jobs.wait_next_in_order()`, recorded
as the job sequence it returns.  The Nat argument only bounds the number
of iterations; drainAll supplies the pending length, which drains
everything. -/
def drainAllAux : Nat → ParallelJobs → List PJob
  | 0, _ => []
  | n + 1, s =>
    match s.wait_next_in_order with
    | none => []
    | some ps => ps.1 :: drainAllAux n ps.2

def drainAll (s : ParallelJobs) : List PJob :=
  drainAllAux s.pending.length s

/-!
## main: format selection, orchestration trace, assembly
-/

/-- Python str.endswith: the character sequence of suff is a suffix of
that of s. -/
def strEndsWith (s suff : String) : Bool :=
  s.data.drop (s.data.length - suff.data.length) == suff.data

/-- Format selection in main: an explicit --format value is kept as is;
otherwise each of the four extensions is tested in turn against the
output path and a match overwrites the inferred value (the loop has no
break, so the last matching extension wins; no two of these extensions
can match one path simultaneously). -/
def inferFormat (fmt : Option String) (output : String) : Option String :=
  match fmt with
  | some f => some f
  | none =>
    ["tar.gz", "tar", "tgz", "zip"].foldl
      (fun acc ext => if strEndsWith output ("." ++ ext) then some ext else acc) none

/-- The externally observable actions of one run of main, in the order the
single coordinating flow performs them.  resolveRev: the initial git
rev-parse of the requested revision (together with the toplevel/git-dir
queries and registry construction that follow it).  dryLine i / launchJob
i: the per-node report line of a dry run, respectively the launch of
archive job i.  unlinkFinal: removal of a pre-existing output file before
the first concatenation.  appendSeg i: tar --concatenate of segment i onto
the output.  unlinkSeg i / warnCleanup i: successful removal of segment
file i, respectively the non-fatal warning when that removal fails.
tarFail i: the fatal failure of the concatenation process for segment i. -/
inductive Ev where
  | resolveRev
  | dryLine (i : Nat)
  | launchJob (i : Nat)
  | unlinkFinal
  | appendSeg (i : Nat)
  | unlinkSeg (i : Nat)
  | warnCleanup (i : Nat)
  | tarFail (i : Nat)
deriving DecidableEq

/-- The assembly loop of main over the remaining FIFO: wait for the head
job; a nonzero exit status is fatal (RuntimeError, process exit 1) with no
further events; otherwise run tar --concatenate (tarOk i says whether that
external process succeeds; its failure is fatal), then delete the segment
file, a failed deletion producing only a warning; then continue with the
rest.  Exit code 0 when the FIFO is exhausted. -/
def drainGo (tarOk unlinkOk : Nat → Bool) : List PJob → List Ev × Nat
  | [] => ([], 0)
  | p :: rest =>
    if p.retcode ≠ 0 then ([], 1)
    else if !tarOk p.idx then ([Ev.tarFail p.idx], 1)
    else
      let r := drainGo tarOk unlinkOk rest
      (Ev.appendSeg p.idx ::
        ((if unlinkOk p.idx then [Ev.unlinkSeg p.idx] else [Ev.warnCleanup p.idx]) ++ r.1),
       r.2)

/-- The assembly loop as main runs it, on the scheduler state. -/
def drainLoop (tarOk unlinkOk : Nat → Bool) (s : ParallelJobs) : List Ev × Nat :=
  drainGo tarOk unlinkOk s.pending

/-- The scheduler state after main's traversal loop has launched one job
per node, in node order: job i carries index i, its (arbitrary) completion
instant and its archive process's exit status. -/
def launchAll (nproc : Int) (n : Nat) (finishTimes : Nat → Nat)
    (retcodes : Nat → Int) : ParallelJobs :=
  (List.range n).foldl
    (fun s i => s.launch ⟨i, finishTimes i, retcodes i⟩)
    (ParallelJobs.init nproc)

/-- The trace and exit status of one run of main.  Control flow of the
script: the format gate (fatal, exit 1, before any git command runs); the
rev-parse of the requested revision and registry construction; the
traversal loop, which per yielded node prints a dry-run line or launches
the archive job (a walk aborted by sys.exit(code) terminates the process
with that code, after the already-yielded nodes were processed; an
assertion failure terminates with code 1); for a dry run, return 0 right
after the loop; otherwise remove a pre-existing output file and run the
assembly loop.  fuelOut cannot occur with adequate fuel; its branch is
given the arbitrary status 99. -/
def mainModel (dryrun : Bool) (fmt : Option String) (output : String)
    (d : Int) (nproc : Int) (env : GitEnv) (c : GitDirCollection) (fuel : Nat)
    (top top_gitdir top_rev : String)
    (finishTimes : Nat → Nat) (retcodes : Nat → Int)
    (tarOk unlinkOk : Nat → Bool) : List Ev × Nat :=
  if inferFormat fmt output = some "tar" then
    let w := walkRepo env c fuel top top_gitdir top_rev d
    let n := w.1.length
    let nodeEvs := (List.range n).map
      (fun i => if dryrun then Ev.dryLine i else Ev.launchJob i)
    match w.2 with
    | .ok =>
      if dryrun then (Ev.resolveRev :: nodeEvs, 0)
      else
        let rest := drainLoop tarOk unlinkOk (launchAll nproc n finishTimes retcodes)
        (Ev.resolveRev :: nodeEvs ++ Ev.unlinkFinal :: rest.1, rest.2)
    | .exited code => (Ev.resolveRev :: nodeEvs, code)
    | .assertFail => (Ev.resolveRev :: nodeEvs, 1)
    | .fuelOut => (Ev.resolveRev :: nodeEvs, 99)
  else ([], 1)

/-- Drain-phase event classifier: the events the assembly loop can emit
(appends, segment cleanups and their warnings, concatenation failures),
as opposed to the traversal-phase events. -/
def isDrainEv : Ev → Bool
  | .appendSeg _ => true
  | .unlinkSeg _ => true
  | .warnCleanup _ => true
  | .tarFail _ => true
  | _ => false

/-!
## Concrete instances

A small concrete world used to instantiate the theorems: a top repository
(git-dir GT, commit RT) with one gitlink sub pinned at RS, whose git-dir
GS is registered under the hint top/sub; and a variant in which RS is in
no registered store.
-/

def exEnv : GitEnv where
  lsTree := fun g r =>
    if g == "GT" && r == "RT" then [⟨"160000", "commit", "RS", "sub"⟩] else []
  validCommit := fun g r =>
    (g == "GT" && r == "RT") || (g == "GS" && r == "RS")

def exColl : GitDirCollection :=
  (GitDirCollection.empty.add "top" (.str "GT")).add "top/sub" (.path "GS")

def exTree : RepoTree := .mk "GT" "RT" [("sub", .mk "GS" "RS" [])]

def envC1 : GitEnv where
  lsTree := fun g r =>
    if g == "GT" && r == "RT" then [⟨"160000", "commit", "RS", "sub"⟩] else []
  validCommit := fun _ _ => false

def collC1 : GitDirCollection := GitDirCollection.empty.add "T" (.str "GT")

def collC3 : GitDirCollection :=
  ((GitDirCollection.empty.add "a" (.path "g1")).add "a" (.path "g2")).add
    "b" (.path "g3")

def validC3 : String → String → Bool := fun g r =>
  (g == "g2" && r == "rv") || (g == "g3" && r == "rv")

/-!
## Helper lemmas: scheduler
-/

theorem pending_foldl_launch (js : List PJob) :
    ∀ s : ParallelJobs, (js.foldl ParallelJobs.launch s).pending = s.pending ++ js := by
  induction js with
  | nil => intro s; simp
  | cons j rest ih =>
    intro s
    simp [List.foldl_cons, ih, ParallelJobs.launch]

theorem drainAllAux_drains (n : Nat) :
    ∀ s : ParallelJobs, s.pending.length ≤ n → drainAllAux n s = s.pending := by
  induction n with
  | zero =>
    intro s h
    have hp : s.pending = [] := List.length_eq_zero.mp (Nat.le_zero.mp h)
    simp [drainAllAux, hp]
  | succ n ih =>
    intro s h
    cases hp : s.pending with
    | nil => simp [drainAllAux, ParallelJobs.wait_next_in_order, hp]
    | cons p rest =>
      have hr : ({ s with pending := rest } : ParallelJobs).pending.length ≤ n := by
        rw [hp] at h; simpa using Nat.lt_succ_iff.mp (Nat.lt_of_lt_of_le (by simp) h)
      simp [drainAllAux, ParallelJobs.wait_next_in_order, hp, ih _ hr]

/-!
## Helper lemmas: registry
-/

theorem hintedDirs_subset_allDirs (c : GitDirCollection) (hint : String) :
    ∀ d ∈ hintedDirs c hint, d ∈ allDirs c := by
  intro d hd
  unfold hintedDirs at hd
  cases hf : c.gitdirs.find? (fun pr => pr.1 == hint) with
  | none => rw [hf] at hd; simp at hd
  | some pr =>
    rw [hf] at hd
    simp at hd
    have hmem := List.mem_of_find?_eq_some hf
    unfold allDirs
    rw [List.mem_flatten]
    exact ⟨pr.2, List.mem_map_of_mem Prod.snd hmem, hd⟩

/-!
## Helper lemmas: the walk
-/

theorem walkRepo_succ (env : GitEnv) (c : GitDirCollection) (f : Nat)
    (top g r : String) (d : Int) :
    walkRepo env c (f + 1) top g r d =
      ((top, g, r) :: (walkSubs env c f top d (submoduleEntries env g r)).1,
       (walkSubs env c f top d (submoduleEntries env g r)).2) := rfl

theorem walkSubs_cons (env : GitEnv) (c : GitDirCollection) (f : Nat)
    (top : String) (d : Int) (e : String × String) (rest : List (String × String)) :
    walkSubs env c f top d (e :: rest) =
      walkStep env c (fun top' g' r' d' => walkRepo env c f top' g' r' d') top d e
        (walkSubs env c f top d rest) := rfl

theorem walkSubs_depth0 (env : GitEnv) (c : GitDirCollection) (f : Nat) (top : String) :
    ∀ entries, walkSubs env c f top 0 entries = ([], .ok) := by
  intro entries
  induction entries with
  | nil => rfl
  | cons e rest ih =>
    rw [walkSubs_cons, ih]
    rfl

theorem walkStep_resolved (env : GitEnv) (c : GitDirCollection)
    (rec : String → String → String → Int → List RepoNode × WalkOutcome)
    (top : String) (d : Int) (p rv gdir : String)
    (nodes : List RepoNode) (acc : List RepoNode × WalkOutcome)
    (hd : d ≠ 0) (hg : goodPath p = true)
    (hfind : GitDirCollection.find c env.validCommit (top ++ "/" ++ p) rv = some gdir)
    (hchild : rec (top ++ "/" ++ p) gdir rv (d - 1) = (nodes, .ok)) :
    walkStep env c rec top d (p, rv) acc = (nodes ++ acc.1, acc.2) := by
  simp [walkStep, hd, hg, hfind, hchild]

theorem walkSubs_preorder (env : GitEnv) (c : GitDirCollection) (f : Nat)
    (ih : ∀ (t : RepoTree) (top : String) (d : Int),
      Realizes env c top t → HeightLE t f →
      walkRepo env c f top t.gitdirOf t.revOf d = (t.preorderAt top d, .ok)) :
    ∀ (subs : List (String × RepoTree)) (top : String) (d : Int), d ≠ 0 →
      (∀ p ct, (p, ct) ∈ subs → goodPath p = true) →
      (∀ p ct, (p, ct) ∈ subs →
        GitDirCollection.find c env.validCommit (top ++ "/" ++ p) ct.revOf =
          some ct.gitdirOf) →
      (∀ p ct, (p, ct) ∈ subs → Realizes env c (top ++ "/" ++ p) ct) →
      (∀ p ct, (p, ct) ∈ subs → HeightLE ct f) →
      walkSubs env c f top d (subs.map (fun pc => (pc.1, pc.2.revOf))) =
        (preorderListAt subs top d, .ok) := by
  intro subs
  induction subs with
  | nil =>
    intro top d _ _ _ _ _
    simp [walkSubs, preorderListAt]
  | cons pc rest ihl =>
    intro top d hd hgood hfind hreal hh
    obtain ⟨p, ct⟩ := pc
    have htail := ihl top d hd
      (fun p' ct' h => hgood p' ct' (List.mem_cons_of_mem _ h))
      (fun p' ct' h => hfind p' ct' (List.mem_cons_of_mem _ h))
      (fun p' ct' h => hreal p' ct' (List.mem_cons_of_mem _ h))
      (fun p' ct' h => hh p' ct' (List.mem_cons_of_mem _ h))
    have hmem : ((p, ct) : String × RepoTree) ∈ (p, ct) :: rest :=
      List.mem_cons_self _ _
    have hchild := ih ct (top ++ "/" ++ p) (d - 1) (hreal p ct hmem) (hh p ct hmem)
    calc walkSubs env c f top d (((p, ct) :: rest).map (fun pc => (pc.1, pc.2.revOf)))
        = walkStep env c (fun top' g' r' d' => walkRepo env c f top' g' r' d') top d
            (p, ct.revOf)
            (walkSubs env c f top d (rest.map (fun pc => (pc.1, pc.2.revOf)))) := rfl
      _ = (ct.preorderAt (top ++ "/" ++ p) (d - 1) ++ preorderListAt rest top d, .ok) := by
            rw [htail]
            exact walkStep_resolved env c _ top d p ct.revOf ct.gitdirOf _ _ hd
              (hgood p ct hmem) (hfind p ct hmem) hchild
      _ = (preorderListAt ((p, ct) :: rest) top d, .ok) := by
            simp [preorderListAt]

theorem walkRepo_preorder (env : GitEnv) (c : GitDirCollection) :
    ∀ (f : Nat) (t : RepoTree) (top : String) (d : Int),
      Realizes env c top t → HeightLE t f →
      walkRepo env c f top t.gitdirOf t.revOf d = (t.preorderAt top d, .ok) := by
  intro f
  induction f with
  | zero =>
    intro t top d _ hh
    cases hh
  | succ f ih =>
    intro t top d hr hh
    obtain ⟨g, r, subs⟩ := t
    cases hr with
    | node _ _ _ _ hent hgood hfind hreal =>
      cases hh with
      | mk _ _ _ n hch =>
        by_cases hd : d = 0
        · subst hd
          rw [show (RepoTree.mk g r subs).gitdirOf = g from rfl,
              show (RepoTree.mk g r subs).revOf = r from rfl,
              walkRepo_succ, walkSubs_depth0]
          simp [RepoTree.preorderAt]
        · rw [show (RepoTree.mk g r subs).gitdirOf = g from rfl,
              show (RepoTree.mk g r subs).revOf = r from rfl,
              walkRepo_succ, hent,
              walkSubs_preorder env c f ih subs top d hd hgood hfind hreal hch]
          simp [RepoTree.preorderAt, hd]

theorem preorderListAt_of_neg (f : Nat)
    (ih : ∀ (t : RepoTree), HeightLE t f → ∀ (top : String) (d : Int), d < 0 →
      t.preorderAt top d = t.preorderFull top) :
    ∀ (subs : List (String × RepoTree)),
      (∀ p ct, (p, ct) ∈ subs → HeightLE ct f) →
      ∀ (top : String) (d : Int), d < 0 →
      preorderListAt subs top d = preorderListFull subs top := by
  intro subs
  induction subs with
  | nil => intro _ top d _; simp [preorderListAt, preorderListFull]
  | cons pc rest ihl =>
    intro hch top d hd
    obtain ⟨p, ct⟩ := pc
    have h1 := ih ct (hch p ct (List.mem_cons_self _ _)) (top ++ "/" ++ p) (d - 1)
      (by omega)
    have h2 := ihl (fun p' ct' h => hch p' ct' (List.mem_cons_of_mem _ h)) top d hd
    simp [preorderListAt, preorderListFull, h1, h2]

theorem preorderAt_of_neg :
    ∀ (f : Nat) (t : RepoTree), HeightLE t f →
      ∀ (top : String) (d : Int), d < 0 → t.preorderAt top d = t.preorderFull top := by
  intro f
  induction f with
  | zero =>
    intro t hh
    cases hh
  | succ f ih =>
    intro t hh top d hd
    obtain ⟨g, r, subs⟩ := t
    cases hh with
    | mk _ _ _ n hch =>
      rw [show (RepoTree.mk g r subs).preorderAt top d =
            (top, g, r) :: (if d = 0 then [] else preorderListAt subs top d) from by
          simp [RepoTree.preorderAt],
        show (RepoTree.mk g r subs).preorderFull top =
            (top, g, r) :: preorderListFull subs top from by
          simp [RepoTree.preorderFull],
        if_neg (by omega : ¬ d = 0),
        preorderListAt_of_neg f ih subs hch top d hd]

/-!
## Helper lemmas: main orchestration
-/

theorem launchAll_pending (nproc : Int) (n : Nat) (ft : Nat → Nat) (rc : Nat → Int) :
    (launchAll nproc n ft rc).pending =
      (List.range n).map (fun i => ⟨i, ft i, rc i⟩) := by
  unfold launchAll
  rw [show (List.range n).foldl
        (fun s i => ParallelJobs.launch s ⟨i, ft i, rc i⟩) (ParallelJobs.init nproc) =
      ((List.range n).map (fun i => (⟨i, ft i, rc i⟩ : PJob))).foldl
        ParallelJobs.launch (ParallelJobs.init nproc) from
    (List.foldl_map _ _ _ _).symm]
  rw [pending_foldl_launch]
  simp [ParallelJobs.init]

theorem drainGo_events (tarOk unlinkOk : Nat → Bool) :
    ∀ js : List PJob, ∀ e ∈ (drainGo tarOk unlinkOk js).1, isDrainEv e = true := by
  intro js
  induction js with
  | nil => intro e he; simp [drainGo] at he
  | cons j rest ih =>
    intro e he
    by_cases hj : j.retcode = 0
    · by_cases htj : tarOk j.idx = true
      · by_cases hu : unlinkOk j.idx = true
        · simp [drainGo, hj, htj, hu] at he
          rcases he with rfl | rfl | he
          · rfl
          · rfl
          · exact ih e he
        · simp [drainGo, hj, htj, hu] at he
          rcases he with rfl | rfl | he
          · rfl
          · rfl
          · exact ih e he
      · simp [drainGo, hj, htj] at he
        subst he
        rfl
    · simp [drainGo, hj] at he

/-!
## Helper lemmas: the concrete instances
-/

theorem exRealizes : Realizes exEnv exColl "top" exTree := by
  have hleaf : Realizes exEnv exColl "top/sub" (RepoTree.mk "GS" "RS" []) := by
    apply Realizes.node
    · decide
    · intro p ct h; simp at h
    · intro p ct h; simp at h
    · intro p ct h; simp at h
  show Realizes exEnv exColl "top"
    (RepoTree.mk "GT" "RT" [("sub", RepoTree.mk "GS" "RS" [])])
  apply Realizes.node
  · decide
  · intro p ct h
    simp at h
    obtain ⟨rfl, rfl⟩ := h
    decide
  · intro p ct h
    simp at h
    obtain ⟨rfl, rfl⟩ := h
    decide
  · intro p ct h
    simp at h
    obtain ⟨rfl, rfl⟩ := h
    exact hleaf

theorem exHeightLE : HeightLE exTree 2 := by
  show HeightLE (RepoTree.mk "GT" "RT" [("sub", RepoTree.mk "GS" "RS" [])]) 2
  apply HeightLE.mk
  intro p ct h
  simp at h
  obtain ⟨rfl, rfl⟩ := h
  apply HeightLE.mk
  intro p ct h
  simp at h

/-!
## Claim theorems
-/

/-- C2: for every revision tree and every maxDepth, the walk yields the
root node plus exactly the gitlink-reachable submodule nodes within
maxDepth, each exactly once, in depth-first pre-order: its output equals
the depth-bounded pre-order flatten of the tree, in which a parent
precedes its own children, siblings appear in tree-listing order and a
sibling's whole subtree is emitted before the next sibling.  walkRepo
takes no scheduler state at all, so the order is independent of job
scheduling and completion order by construction. -/
theorem walk_is_preorder (env : GitEnv) (c : GitDirCollection) (t : RepoTree)
    (top : String) (d : Int) (f : Nat)
    (hr : Realizes env c top t) (hh : HeightLE t f) :
    walkRepo env c f top t.gitdirOf t.revOf d = (t.preorderAt top d, .ok) :=
  walkRepo_preorder env c f t top d hr hh

/-- Witness for C2 at the concrete two-repository tree, depth 7. -/
theorem walk_is_preorder_witness :
    walkRepo exEnv exColl 2 "top" "GT" "RT" 7 =
      ([("top", "GT", "RT"), ("top/sub", "GS", "RS")], .ok) := by
  have h := walk_is_preorder exEnv exColl exTree "top" 7 2 exRealizes exHeightLE
  simpa [exTree, RepoTree.gitdirOf, RepoTree.revOf, RepoTree.preorderAt,
    preorderListAt] using h

/-- C6: a maxDepth of exactly 0 yields the root node and nothing else —
for every environment whatsoever, since every gitlink entry is skipped
before any registry lookup; and a maxDepth strictly below 0 is unlimited
depth, yielding the full reachable tree. -/
theorem walk_depth_semantics :
    (∀ (env : GitEnv) (c : GitDirCollection) (f : Nat) (top g r : String),
      walkRepo env c (f + 1) top g r 0 = ([(top, g, r)], .ok))
  ∧ (∀ (env : GitEnv) (c : GitDirCollection) (t : RepoTree) (top : String)
        (d : Int) (f : Nat), d < 0 → Realizes env c top t → HeightLE t f →
      walkRepo env c f top t.gitdirOf t.revOf d = (t.preorderFull top, .ok)) := by
  constructor
  · intro env c f top g r
    rw [walkRepo_succ, walkSubs_depth0]
  · intro env c t top d f hd hr hh
    rw [walkRepo_preorder env c f t top d hr hh, preorderAt_of_neg f t hh top d hd]

/-- Witness for C6: depth 0 keeps only the root even though the tree has
a submodule; depth -1 yields both nodes. -/
theorem walk_depth_semantics_witness :
    walkRepo exEnv exColl 3 "top" "GT" "RT" 0 = ([("top", "GT", "RT")], .ok) ∧
    walkRepo exEnv exColl 2 "top" "GT" "RT" (-1) =
      ([("top", "GT", "RT"), ("top/sub", "GS", "RS")], .ok) := by
  constructor
  · exact walk_depth_semantics.1 exEnv exColl 2 "top" "GT" "RT"
  · have h := walk_depth_semantics.2 exEnv exColl exTree "top" (-1) 2 (by decide)
      exRealizes exHeightLE
    simpa [exTree, RepoTree.gitdirOf, RepoTree.revOf, RepoTree.preorderFull,
      preorderListFull] using h

/-- C1: evaluation at the failing input — a submodule pinned commit (RS)
registered in no store.  The walk prints its diagnostic, yields no
further node after the root, and recursively_iter_repos calls
sys.exit(0): the whole modelled run terminates with exit status 0, not
the non-zero status the specification requires. -/
theorem unresolved_submodule_exit_status :
    walkRepo envC1 collC1 5 "T" "GT" "RT" (-1) =
      ([("T", "GT", "RT")], .exited 0) ∧
    mainModel false none "out.tar" (-1) 4 envC1 collC1 5 "T" "GT" "RT"
      (fun _ => 0) (fun _ => 0) (fun _ => true) (fun _ => true) =
      ([Ev.resolveRev, Ev.launchJob 0], 0) := by
  exact ⟨by decide, by decide⟩

/-- C3: find searches the stores registered under the hint first, in
insertion order, returning the first store containing the revision; with
no hinted hit, or an unregistered hint, it scans every registered store
across all hints in registration order and returns the first match; it
returns none exactly when no registered store contains the revision; and
a returned store always is a registered store containing the revision. -/
theorem find_resolution (c : GitDirCollection) (valid : String → String → Bool)
    (hint rev : String) :
    (∀ g, GitDirCollection.find c valid hint rev = some g →
      valid g rev = true ∧ g ∈ allDirs c)
  ∧ (GitDirCollection.find c valid hint rev = none ↔
      ∀ g ∈ allDirs c, valid g rev = false)
  ∧ ((∃ g ∈ hintedDirs c hint, valid g rev = true) →
      GitDirCollection.find c valid hint rev =
        (hintedDirs c hint).find? (fun g => valid g rev))
  ∧ ((∀ g ∈ hintedDirs c hint, valid g rev = false) →
      GitDirCollection.find c valid hint rev =
        (allDirs c).find? (fun g => valid g rev)) := by
  have hsub := hintedDirs_subset_allDirs c hint
  unfold GitDirCollection.find
  cases hh : (hintedDirs c hint).find? (fun g => valid g rev) with
  | some g0 =>
    have hv : valid g0 rev = true := by
      have := List.find?_some hh
      simpa using this
    have hm : g0 ∈ allDirs c := hsub g0 (List.mem_of_find?_eq_some hh)
    refine ⟨?_, ?_, ?_, ?_⟩
    · intro g hg
      obtain rfl : g0 = g := Option.some.inj hg
      exact ⟨hv, hm⟩
    · constructor
      · intro h; cases h
      · intro hall
        exact absurd hv (by simp [hall g0 hm])
    · intro _; rfl
    · intro hnone
      exact absurd hv (by simp [hnone g0 (List.mem_of_find?_eq_some hh)])
  | none =>
    have hnone : ∀ g ∈ hintedDirs c hint, ¬ valid g rev = true :=
      List.find?_eq_none.mp hh
    cases ha : (allDirs c).find? (fun g => valid g rev) with
    | some g1 =>
      refine ⟨?_, ?_, ?_, ?_⟩
      · intro g hg
        obtain rfl : g1 = g := Option.some.inj hg
        refine ⟨?_, List.mem_of_find?_eq_some ha⟩
        have := List.find?_some ha
        simpa using this
      · constructor
        · intro h; cases h
        · intro hall
          exact absurd (List.find?_some ha)
            (by simp [hall g1 (List.mem_of_find?_eq_some ha)])
      · rintro ⟨g, hgmem, hgval⟩
        exact absurd hgval (by simp [hnone g hgmem])
      · intro _; rfl
    | none =>
      have hana : ∀ g ∈ allDirs c, ¬ valid g rev = true :=
        List.find?_eq_none.mp ha
      refine ⟨?_, ?_, ?_, ?_⟩
      · intro g hg; cases hg
      · constructor
        · intro _ g hg
          have := hana g hg
          simpa using this
        · intro _; rfl
      · rintro ⟨g, hgmem, hgval⟩
        exact absurd hgval (by simp [hnone g hgmem])
      · intro _; rfl

/-- Witness for C3: a registry with hints a -> [g1, g2] and b -> [g3] and
a validity map holding for g2 and g3 at revision rv.  The hinted search
for hint a returns g2 (the first hinted hit, skipping g1); the search for
the unregistered hint zz falls back to the full scan and also returns g2;
and the returned store contains rv and is registered. -/
theorem find_resolution_witness :
    GitDirCollection.find collC3 validC3 "a" "rv" =
      (hintedDirs collC3 "a").find? (fun g => validC3 g "rv") ∧
    GitDirCollection.find collC3 validC3 "zz" "rv" =
      (allDirs collC3).find? (fun g => validC3 g "rv") ∧
    (validC3 "g2" "rv" = true ∧ "g2" ∈ allDirs collC3) := by
  refine ⟨?_, ?_, ?_⟩
  · exact (find_resolution collC3 validC3 "a" "rv").2.2.1 ⟨"g2", by decide, by decide⟩
  · exact (find_resolution collC3 validC3 "zz" "rv").2.2.2 (by decide)
  · exact (find_resolution collC3 validC3 "a" "rv").1 "g2" (by decide)

/-- C4: whatever each launched process's completion instant (finishTime,
never read by the scheduler) turns out to be, draining via repeated
wait_next_in_order — which always pops and blocks on the head of the
FIFO — returns the jobs exactly in launch order. -/
theorem drain_in_launch_order (nproc : Int) (js : List PJob) :
    drainAll (js.foldl ParallelJobs.launch (ParallelJobs.init nproc)) = js := by
  have hp : (js.foldl ParallelJobs.launch (ParallelJobs.init nproc)).pending = js := by
    rw [pending_foldl_launch]
    simp [ParallelJobs.init]
  calc drainAll (js.foldl ParallelJobs.launch (ParallelJobs.init nproc))
      = (js.foldl ParallelJobs.launch (ParallelJobs.init nproc)).pending :=
        drainAllAux_drains _ _ (le_refl _)
    _ = js := hp

/-- C7: evaluation of add at the failing input.  Registering the same
git-dir string "x" twice under one hint appends it twice: the str
argument never compares equal to the stored Path objects, so the
duplicate guard cannot fire.  The per-hint sequence then holds the same
handle twice, and the second add changed the registry — refuting both the
never-twice invariant and idempotence. -/
theorem add_str_duplicate :
    ((GitDirCollection.empty.add "h" (.str "x")).add "h" (.str "x")).gitdirs =
      [("h", ["x", "x"])] ∧
    (GitDirCollection.empty.add "h" (.str "x")).add "h" (.str "x") ≠
      GitDirCollection.empty.add "h" (.str "x") ∧
    ¬ (hintedDirs ((GitDirCollection.empty.add "h" (.str "x")).add "h" (.str "x"))
        "h").Nodup := by
  exact ⟨by decide, by decide, by decide⟩

/-- C5: the assembly loop consumes the launched jobs strictly head-first,
in launch order; assuming every concatenation process itself succeeds,
its behaviour is exactly: walk the maximal prefix of jobs with exit
status 0, for each appending its segment onto the output and then
deleting the segment file — a failed deletion producing only a warning
event and never stopping the loop — and the first job with a nonzero
exit status aborts the whole run right there with overall status 1, with
no further concatenation and with every segment appended so far left in
place (the events of the prefix remain in the trace); with no failing job
the loop completes with status 0.  The overall status does not depend on
the deletion outcomes. -/
theorem assembly_in_order (tarOk unlinkOk : Nat → Bool) (js : List PJob)
    (ht : ∀ j ∈ js, tarOk j.idx = true) :
    drainGo tarOk unlinkOk js =
      (((js.takeWhile (fun j => j.retcode == 0)).map (fun j =>
          Ev.appendSeg j.idx ::
            (if unlinkOk j.idx then [Ev.unlinkSeg j.idx]
             else [Ev.warnCleanup j.idx]))).flatten,
       if js.all (fun j => j.retcode == 0) then 0 else 1) := by
  revert ht
  induction js with
  | nil => intro _; simp [drainGo]
  | cons j rest ih =>
    intro ht
    by_cases hj : j.retcode = 0
    · have htj : tarOk j.idx = true := ht j (List.mem_cons_self _ _)
      have ihr := ih (fun j' h => ht j' (List.mem_cons_of_mem _ h))
      simp [drainGo, hj, htj, ihr]
    · have hb : (j.retcode == 0) = false := by simp [hj]
      simp [drainGo, hj, hb]

/-- Witness for C5: three jobs with exit statuses 0, 2, 0 and a failing
deletion for segment 0.  Job 0's segment is appended and its failed
deletion only warns; job 1's nonzero status aborts with overall status 1;
job 2 is never assembled; the already-appended segment 0 stays. -/
theorem assembly_in_order_witness :
    drainGo (fun _ => true) (fun i => i != 0) [⟨0, 5, 0⟩, ⟨1, 1, 2⟩, ⟨2, 0, 0⟩] =
      ([Ev.appendSeg 0, Ev.warnCleanup 0], 1) := by
  have h := assembly_in_order (fun _ => true) (fun i => i != 0)
    [⟨0, 5, 0⟩, ⟨1, 1, 2⟩, ⟨2, 0, 0⟩] (by decide)
  exact h.trans (by decide)

/-- C8: under the dry-run flag, with a supported format and a fully
resolvable tree, the run performs the complete traversal (including all
registry resolution), its trace is exactly the revision resolution
followed by one intended-action line per discovered node, and it exits
with status 0; in particular the trace contains no job launch, no
output-file removal, no concatenation and no segment deletion — the
output file is never touched. -/
theorem dry_run_no_effects (fmt : Option String) (output : String) (d : Int)
    (nproc : Int) (env : GitEnv) (c : GitDirCollection) (fuel : Nat)
    (top tg tr : String) (ft : Nat → Nat) (rc : Nat → Int)
    (tOk uOk : Nat → Bool) (nodes : List RepoNode)
    (hfmt : inferFormat fmt output = some "tar")
    (hwalk : walkRepo env c fuel top tg tr d = (nodes, .ok)) :
    mainModel true fmt output d nproc env c fuel top tg tr ft rc tOk uOk =
      (Ev.resolveRev :: (List.range nodes.length).map Ev.dryLine, 0) ∧
    (mainModel true fmt output d nproc env c fuel top tg tr ft rc tOk uOk).1.countP
      (fun e => match e with | Ev.dryLine _ => true | _ => false) = nodes.length ∧
    ∀ e ∈ (mainModel true fmt output d nproc env c fuel top tg tr ft rc tOk uOk).1,
      e = Ev.resolveRev ∨ ∃ i, e = Ev.dryLine i := by
  have h1 : mainModel true fmt output d nproc env c fuel top tg tr ft rc tOk uOk =
      (Ev.resolveRev :: (List.range nodes.length).map Ev.dryLine, 0) := by
    simp [mainModel, hfmt, hwalk]
  refine ⟨h1, ?_, ?_⟩
  · rw [h1]
    have hall : ∀ a ∈ List.range nodes.length,
        ((fun e => match e with | Ev.dryLine _ => true | _ => false) ∘ Ev.dryLine) a
          = true := fun a _ => rfl
    simp only [List.countP_cons, List.countP_map, List.countP_eq_length.mpr hall]
    simp
  · rw [h1]
    intro e he
    simp [List.mem_map] at he
    rcases he with rfl | ⟨i, _, rfl⟩
    · exact Or.inl rfl
    · exact Or.inr ⟨i, rfl⟩

/-- Witness for C8: a dry run over the two-node tree prints two
intended-action lines after the resolution and exits 0, with no other
event. -/
theorem dry_run_no_effects_witness :
    mainModel true none "o.tar" 7 4 exEnv exColl 2 "top" "GT" "RT"
      (fun _ => 0) (fun _ => 0) (fun _ => true) (fun _ => true) =
      ([Ev.resolveRev, Ev.dryLine 0, Ev.dryLine 1], 0) := by
  have h := (dry_run_no_effects none "o.tar" 7 4 exEnv exColl 2 "top" "GT" "RT"
    (fun _ => 0) (fun _ => 0) (fun _ => true) (fun _ => true)
    [("top", "GT", "RT"), ("top/sub", "GS", "RS")] (by decide) (by decide)).1
  exact h.trans (by decide)

/-- C9: with no explicit format the value is inferred from the output
path's extension, the four extensions tar.gz, tar, tgz, zip being tested
in that order with a later match overwriting an earlier one (at most one
of them can match a given path, so the loop order is immaterial); an
explicitly supplied value is kept verbatim; and any supplied or inferred
value other than tar — including none, when no recognized extension is
present — makes the run terminate with status 1 and an entirely empty
trace: no revision is resolved, no traversal happens, nothing is
launched and the output file is untouched. -/
theorem format_gate (fmt : Option String) (output : String) (dry : Bool)
    (d : Int) (nproc : Int) (env : GitEnv) (c : GitDirCollection) (fuel : Nat)
    (top tg tr : String) (ft : Nat → Nat) (rc : Nat → Int) (tOk uOk : Nat → Bool) :
    (∀ s, inferFormat (some s) output = some s)
  ∧ (inferFormat none output =
      if strEndsWith output ".zip" then some "zip"
      else if strEndsWith output ".tgz" then some "tgz"
      else if strEndsWith output ".tar" then some "tar"
      else if strEndsWith output ".tar.gz" then some "tar.gz"
      else none)
  ∧ (inferFormat fmt output ≠ some "tar" →
      mainModel dry fmt output d nproc env c fuel top tg tr ft rc tOk uOk =
        ([], 1)) := by
  refine ⟨fun s => rfl, rfl, ?_⟩
  intro hne
  unfold mainModel
  rw [if_neg hne]

/-- Witness for C9: an explicit unsupported format aborts with an empty
trace and status 1 before anything runs, and the zip extension is
recognized by inference. -/
theorem format_gate_witness :
    mainModel true (some "zip") "x.tar" 0 1 exEnv exColl 1 "top" "GT" "RT"
      (fun _ => 0) (fun _ => 0) (fun _ => true) (fun _ => true) = ([], 1) ∧
    inferFormat none "x.zip" = some "zip" := by
  constructor
  · exact (format_gate (some "zip") "x.tar" true 0 1 exEnv exColl 1 "top" "GT" "RT"
      (fun _ => 0) (fun _ => 0) (fun _ => true) (fun _ => true)).2.2 (by decide)
  · have h := (format_gate none "x.zip" true 0 1 exEnv exColl 1 "top" "GT" "RT"
      (fun _ => 0) (fun _ => 0) (fun _ => true) (fun _ => true)).2.1
    exact h.trans (by decide)

/-- C10: in a real run with a supported format, when the traversal
completes, the trace is exactly the revision resolution, then one launch
per node — every launch made during the traversal loop — then the
removal of a pre-existing output file, then the assembly events, which
consist solely of appends, segment cleanups and concatenation failures:
the drain phase starts only after every job is launched, and no append
precedes any launch.  When the traversal instead aborts on an unresolved
submodule, the trace holds only the resolution and the launches made so
far: the output file is never removed and no segment is ever appended. -/
theorem launches_precede_assembly (fmt : Option String) (output : String)
    (d : Int) (nproc : Int) (env : GitEnv) (c : GitDirCollection) (fuel : Nat)
    (top tg tr : String) (ft : Nat → Nat) (rc : Nat → Int) (tOk uOk : Nat → Bool)
    (nodes : List RepoNode)
    (hfmt : inferFormat fmt output = some "tar") :
    (walkRepo env c fuel top tg tr d = (nodes, .ok) →
      mainModel false fmt output d nproc env c fuel top tg tr ft rc tOk uOk =
        (Ev.resolveRev :: ((List.range nodes.length).map Ev.launchJob ++
          Ev.unlinkFinal ::
            (drainGo tOk uOk ((List.range nodes.length).map
              (fun i => ⟨i, ft i, rc i⟩))).1),
         (drainGo tOk uOk ((List.range nodes.length).map
            (fun i => ⟨i, ft i, rc i⟩))).2) ∧
      ∀ e ∈ (drainGo tOk uOk ((List.range nodes.length).map
          (fun i => (⟨i, ft i, rc i⟩ : PJob)))).1, isDrainEv e = true)
  ∧ (∀ code, walkRepo env c fuel top tg tr d = (nodes, .exited code) →
      mainModel false fmt output d nproc env c fuel top tg tr ft rc tOk uOk =
        (Ev.resolveRev :: (List.range nodes.length).map Ev.launchJob, code) ∧
      Ev.unlinkFinal ∉
        (mainModel false fmt output d nproc env c fuel top tg tr ft rc tOk uOk).1 ∧
      ∀ i, Ev.appendSeg i ∉
        (mainModel false fmt output d nproc env c fuel top tg tr ft rc tOk uOk).1) := by
  constructor
  · intro hwalk
    constructor
    · simp [mainModel, hfmt, hwalk, drainLoop, launchAll_pending]
    · exact drainGo_events tOk uOk _
  · intro code hwalk
    have h1 : mainModel false fmt output d nproc env c fuel top tg tr ft rc tOk uOk =
        (Ev.resolveRev :: (List.range nodes.length).map Ev.launchJob, code) := by
      simp [mainModel, hfmt, hwalk]
    refine ⟨h1, ?_, ?_⟩
    · rw [h1]
      simp
    · intro i
      rw [h1]
      simp

/-- Witness for C10: the two-node tree in a real run with all processes
succeeding — every launch precedes the output-file removal, which
precedes every append. -/
theorem launches_precede_assembly_witness :
    mainModel false none "o.tar" 7 4 exEnv exColl 2 "top" "GT" "RT"
      (fun _ => 0) (fun _ => 0) (fun _ => true) (fun _ => true) =
      ([Ev.resolveRev, Ev.launchJob 0, Ev.launchJob 1, Ev.unlinkFinal,
        Ev.appendSeg 0, Ev.unlinkSeg 0, Ev.appendSeg 1, Ev.unlinkSeg 1], 0) := by
  have h := ((launches_precede_assembly none "o.tar" 7 4 exEnv exColl 2 "top"
    "GT" "RT" (fun _ => 0) (fun _ => 0) (fun _ => true) (fun _ => true)
    [("top", "GT", "RT"), ("top/sub", "GS", "RS")] (by decide)).1 (by decide)).1
  exact h.trans (by decide)
